import Mathlib

/-!
Verification of the font_test repository: the text payload packer, the
font atlas loader, the font registry / `FontSize` selection, and the
glyph dispatcher's draw-call emission, shallowly embedded from
`src/main.rs` and `src/fonts.rs`.

Bytes are modelled as `Nat` (the source uses `u8`; no arithmetic is
performed on byte values, so no truncation is needed).  Buffer lengths
and offsets are modelled as `Nat`: all indices in the program are
bounded by the fixed 1 MiB payload buffer, far below every machine
integer width involved (`usize`, `u32`), so wrap-around never matters.
-/

namespace FontTest

/-! ## Text Payload Packer (`src/main.rs`, lines 294-301) -/

/-- Rounding `n` down to a multiple of 4: the source writes
`n & !3`, which clears the two low bits, i.e. `n / 4 * 4`. -/
def alignDown4 (n : Nat) : Nat := n / 4 * 4

/-- `Vec::resize(n, 0)` from the source: truncate to `n` elements if the
vector is longer, otherwise append zeroes up to length `n`. -/
def listResize (l : List Nat) (n : Nat) : List Nat :=
  if n ≤ l.length then l.take n else l ++ List.replicate (n - l.length) 0

/-- The state threaded through the packing loop of `main`:
`text_data` is the byte buffer being built and `offsets` the list of
recorded `pc.offset` values, in string order. -/
structure PackState where
  text_data : List Nat
  offsets   : List Nat
deriving DecidableEq

instance : Inhabited PackState := ⟨⟨[], []⟩⟩

/-- One iteration of the packing loop (`src/main.rs` lines 296-300):
`pc.offset = text_data.len() as u32 / 4;`
`text_data.extend_from_slice(*msg);`
`text_data.resize((text_data.len() + 3) & !3, 0u8);` -/
def packStep (st : PackState) (msg : List Nat) : PackState :=
  let offset := st.text_data.length / 4
  let data1 := st.text_data ++ msg
  { text_data := listResize data1 (alignDown4 (data1.length + 3)),
    offsets   := st.offsets ++ [offset] }

/-- The whole packing loop over the messages, starting from the empty
buffer (`let mut text_data = Vec::new();`). -/
def packText (msgs : List (List Nat)) : PackState :=
  msgs.foldl packStep ⟨[], []⟩

/-- `payload[start .. start+len]`: the `len` bytes of `l` starting at
index `start`. -/
def sliceAt (l : List Nat) (start len : Nat) : List Nat :=
  (l.drop start).take len

/-! ## Atlas Loader (`src/fonts.rs`, `load_fonts`) -/

/-- A decoded font sheet: the dimensions returned by
`image.dimensions()` after a successful decode. -/
structure FontSheet where
  width  : Nat
  height : Nat
deriving DecidableEq

instance : Inhabited FontSheet := ⟨⟨0, 0⟩⟩

/-- The per-font data produced by one iteration of the load loop of
`load_fonts` (`src/fonts.rs` lines 153-192).

* `width` / `height` are the fields of the Rust `Font` struct,
  `dimensions.0 / 16` and (as written in the source) `dimensions.0 / 16`
  again.
* `uniform` holds the two values written into the 8-byte uniform buffer
  bound at binding 2: `(dimensions.0 / 16) as f32` and
  `(dimensions.1 / 16) as f32`.  The two quotients are far below 2^24
  for any real sheet, so the `f32` cast is value-preserving and the
  uniform is modelled by the pair of exact quotients.
* `bindGroup` identifies the bind group created for this font; each
  loop iteration creates a fresh bind group, modelled by the font's
  load index. -/
structure LoadedFont where
  width     : Nat
  height    : Nat
  uniform   : Nat × Nat
  bindGroup : Nat
deriving DecidableEq

instance : Inhabited LoadedFont := ⟨⟨0, 0, (0, 0), 0⟩⟩

/-- One iteration of the load loop: the
`assert!(dimensions.0 % 16 == 0 && dimensions.1 % 16 == 0)` is a fatal
panic, modelled as `none`; on success the `Font` is built with
`width: dimensions.0 / 16, height: dimensions.0 / 16` (the source reuses
the width for the height) and the binding-2 uniform is filled with
`(dimensions.0 / 16, dimensions.1 / 16)`. -/
def loadFont (idx : Nat) (sheet : FontSheet) : Option LoadedFont :=
  if sheet.width % 16 = 0 ∧ sheet.height % 16 = 0 then
    some { width     := sheet.width / 16,
           height    := sheet.width / 16,
           uniform   := (sheet.width / 16, sheet.height / 16),
           bindGroup := idx }
  else
    none

/-- The load loop of `load_fonts`, threading the load index (which is
also the position in the resulting `fonts` vector). -/
def loadFontsAux (i : Nat) : List FontSheet → Option (List LoadedFont)
  | [] => some []
  | s :: rest =>
    match loadFont i s, loadFontsAux (i + 1) rest with
    | some f, some fs => some (f :: fs)
    | _, _ => none

/-- `load_fonts`: load every sheet of the database, in order; any
failed sheet aborts the whole load. -/
def load_fonts (sheets : List FontSheet) : Option (List LoadedFont) :=
  loadFontsAux 0 sheets

/-! ## Font Registry selection (`src/fonts.rs` `FontSize`,
`src/main.rs` line 341-342) -/

/-- The `FontSize` enum, `#[repr(usize)]`, one variant per font of the
database in load order. -/
inductive FontSize where
  | Size4x6
  | Size6x8
  | Size6x10
  | Size8x12
  | Size8x14
  | Size8x15
  | Size8x16
  | Size12x20
  | Size16x24
  | Size24x36
deriving DecidableEq

/-- The `usize` discriminant of a `FontSize` value
(`*font_size as usize`). -/
def FontSize.toIndex : FontSize → Nat
  | .Size4x6   => 0
  | .Size6x8   => 1
  | .Size6x10  => 2
  | .Size8x12  => 3
  | .Size8x14  => 4
  | .Size8x15  => 5
  | .Size8x16  => 6
  | .Size12x20 => 7
  | .Size16x24 => 8
  | .Size24x36 => 9

/-- `fonts.fonts[i]`: Rust `Vec` indexing panics (deterministically,
after a bounds check) when `i` is out of range; the panic is modelled
as `none`. -/
def selectFontIdx (fonts : List LoadedFont) (i : Nat) : Option LoadedFont :=
  fonts[i]?

/-- `fonts.fonts[*font_size as usize]` from the draw loop. -/
def selectFont (fonts : List LoadedFont) (fs : FontSize) : Option LoadedFont :=
  selectFontIdx fonts fs.toIndex

/-! ## Glyph Dispatcher (`src/main.rs`, lines 339-350) -/

/-- One entry of the `strings` vector: a font selector and the message
bytes.  The colour and placement of the push constants do not affect
any verified property and are omitted; the `offset` field is the one
assigned by the packing loop, carried separately. -/
structure TextItem where
  font : FontSize
  msg  : List Nat
deriving DecidableEq

instance : Inhabited TextItem := ⟨⟨FontSize.Size4x6, []⟩⟩

/-- One recorded draw call of the render loop: the bind group set at
slot 0, the push-constant word offset, and the vertex range
`0..msg.len()*6` of `render_pass.draw`. -/
structure DrawCall where
  fontIndex   : Nat
  pushOffset  : Nat
  firstVertex : Nat
  vertexCount : Nat
deriving DecidableEq

instance : Inhabited DrawCall := ⟨⟨0, 0, 0, 0⟩⟩

/-- The draw loop: one draw call per text item, in order, pairing each
item with the payload word offset recorded for it by the packer. -/
def drawCalls : List TextItem → List Nat → List DrawCall
  | item :: items, off :: offs =>
    { fontIndex   := item.font.toIndex,
      pushOffset  := off,
      firstVertex := 0,
      vertexCount := item.msg.length * 6 } :: drawCalls items offs
  | _, _ => []

/-! ## Payload upload (`src/main.rs`, lines 118-126 and 301) -/

/-- `FONT_BUFFER_SIZE`: the fixed size of the preallocated text storage
buffer; the buffer is created once with this size and never resized. -/
def FONT_BUFFER_SIZE : Nat := 1024 * 1024

/-- Modelled from the spec: the backing GPU buffer write
(`queue.write_buffer(&text_buffer, 0, ...)`) is performed by the
external graphics device, whose code is not part of this repository.
Per the spec's failure semantics, a packed payload exceeding the
preallocated buffer capacity is a fatal error (modelled as `none`) and
the buffer is never grown. -/
def writeBuffer (capacity : Nat) (data : List Nat) : Option Unit :=
  if data.length ≤ capacity then some () else none

/-- The frame-setup pipeline of `main`: pack every string into one
buffer, upload it to the fixed-capacity text buffer, and only then emit
the per-item draw calls of the render loop. -/
def frameSetup (items : List TextItem) : Option (List DrawCall) :=
  let st := packText (items.map TextItem.msg)
  match writeBuffer FONT_BUFFER_SIZE st.text_data with
  | some _ => some (drawCalls items st.offsets)
  | none   => none

/-! ## Helper lemmas -/

theorem alignDown4_mod (n : Nat) : alignDown4 n % 4 = 0 := by
  unfold alignDown4; omega

theorem le_alignDown4_add3 (n : Nat) : n ≤ alignDown4 (n + 3) := by
  unfold alignDown4; omega

theorem listResize_of_le (l : List Nat) (n : Nat) (h : l.length ≤ n) :
    listResize l n = l ++ List.replicate (n - l.length) 0 := by
  unfold listResize
  by_cases hle : n ≤ l.length
  · have heq : n = l.length := Nat.le_antisymm hle h
    simp [heq]
  · simp [hle]

theorem getD_append_of_lt {α : Type} (l t : List α) (d : α) (n : Nat)
    (h : n < l.length) : (l ++ t).getD n d = l.getD n d := by
  rw [List.getD_eq_getElem?_getD, List.getD_eq_getElem?_getD,
    List.getElem?_append_left h]

theorem getD_append_length {α : Type} (l : List α) (a d : α) :
    (l ++ [a]).getD l.length d = a := by
  rw [List.getD_eq_getElem?_getD, List.getElem?_append_right (Nat.le_refl _)]
  simp

theorem sliceAt_append (l t : List Nat) (s n : Nat) (h : s + n ≤ l.length) :
    sliceAt (l ++ t) s n = sliceAt l s n := by
  unfold sliceAt
  rw [List.drop_append_of_le_length (by omega),
    List.take_append_of_le_length (by simp; omega)]

theorem sliceAt_start (l m t : List Nat) :
    sliceAt (l ++ (m ++ t)) l.length m.length = m := by
  unfold sliceAt
  rw [List.drop_left, List.take_left]

/-- Characterisation of one packing iteration when the buffer is
4-byte aligned (which it always is at the top of the loop): the string
is appended, then `(4 - L % 4) % 4` zero bytes, and the word offset
`text_data.len() / 4` is recorded. -/
theorem packStep_eq (st : PackState) (msg : List Nat)
    (h : st.text_data.length % 4 = 0) :
    packStep st msg =
      { text_data := st.text_data ++
          (msg ++ List.replicate ((4 - msg.length % 4) % 4) 0),
        offsets   := st.offsets ++ [st.text_data.length / 4] } := by
  have h2 : (st.text_data ++ msg).length ≤
      alignDown4 ((st.text_data ++ msg).length + 3) := le_alignDown4_add3 _
  unfold packStep
  dsimp only
  rw [listResize_of_le _ _ h2]
  have h3 : alignDown4 ((st.text_data ++ msg).length + 3) -
      (st.text_data ++ msg).length = (4 - msg.length % 4) % 4 := by
    simp only [List.length_append, alignDown4]
    omega
  rw [h3, List.append_assoc]

/-- The loop invariant of the packing loop, after the strings in
`processed` have been packed into `st`:
the offsets list has one entry per string; the buffer length is a
multiple of 4; every recorded range lies inside the buffer; the bytes
of every recorded range are exactly the original string; and the
ranges appear in order, without overlap. -/
def PackInv (processed : List (List Nat)) (st : PackState) : Prop :=
  st.offsets.length = processed.length ∧
  st.text_data.length % 4 = 0 ∧
  (∀ i, i < processed.length →
    st.offsets.getD i 0 * 4 + (processed.getD i []).length ≤
      st.text_data.length) ∧
  (∀ i, i < processed.length →
    sliceAt st.text_data (st.offsets.getD i 0 * 4)
      (processed.getD i []).length = processed.getD i []) ∧
  (∀ i j, i < j → j < processed.length →
    st.offsets.getD i 0 * 4 + (processed.getD i []).length ≤
      st.offsets.getD j 0 * 4)

theorem packStep_inv {processed : List (List Nat)} {st : PackState}
    (msg : List Nat) (h : PackInv processed st) :
    PackInv (processed ++ [msg]) (packStep st msg) := by
  obtain ⟨hlen, hmod, hbound, hslice, hsorted⟩ := h
  rw [packStep_eq st msg hmod]
  refine ⟨?_, ?_, ?_, ?_, ?_⟩
  · simp [hlen]
  · simp only [List.length_append, List.length_replicate]
    omega
  · intro i hi
    simp only [List.length_append, List.length_cons, List.length_nil] at hi
    rcases Nat.lt_or_ge i processed.length with hlt | hge
    · rw [getD_append_of_lt _ _ _ _ (hlen ▸ hlt),
        getD_append_of_lt _ _ _ _ hlt]
      have := hbound i hlt
      simp only [List.length_append, List.length_replicate]
      omega
    · have heq : i = processed.length := by omega
      subst heq
      rw [← hlen, getD_append_length]
      rw [hlen, getD_append_length]
      simp only [List.length_append, List.length_replicate]
      omega
  · intro i hi
    simp only [List.length_append, List.length_cons, List.length_nil] at hi
    rcases Nat.lt_or_ge i processed.length with hlt | hge
    · rw [getD_append_of_lt _ _ _ _ (hlen ▸ hlt),
        getD_append_of_lt _ _ _ _ hlt,
        sliceAt_append _ _ _ _ (hbound i hlt)]
      exact hslice i hlt
    · have heq : i = processed.length := by omega
      subst heq
      rw [← hlen, getD_append_length, hlen, getD_append_length]
      have hoff : st.text_data.length / 4 * 4 = st.text_data.length := by
        omega
      rw [hoff]
      exact sliceAt_start _ _ _
  · intro i j hij hj
    simp only [List.length_append, List.length_cons, List.length_nil] at hj
    have hilt : i < processed.length := by
      rcases Nat.lt_or_ge j processed.length with hlt | hge
      · omega
      · omega
    rcases Nat.lt_or_ge j processed.length with hlt | hge
    · rw [getD_append_of_lt _ _ _ _ (hlen ▸ hilt),
        getD_append_of_lt _ _ _ _ hilt,
        getD_append_of_lt _ _ _ _ (hlen ▸ hlt)]
      exact hsorted i j hij hlt
    · have heq : j = processed.length := by omega
      subst heq
      rw [getD_append_of_lt _ _ _ _ (hlen ▸ hilt),
        getD_append_of_lt _ _ _ _ hilt,
        ← hlen, getD_append_length]
      have := hbound i hilt
      omega

theorem packInv_nil : PackInv [] ⟨[], []⟩ := by
  refine ⟨rfl, rfl, ?_, ?_, ?_⟩
  · intro i hi; exact absurd hi (Nat.not_lt_zero i)
  · intro i hi; exact absurd hi (Nat.not_lt_zero i)
  · intro i j hij hj; exact absurd hj (Nat.not_lt_zero j)

theorem packInv_foldl (msgs : List (List Nat)) :
    ∀ (processed : List (List Nat)) (st : PackState),
    PackInv processed st →
    PackInv (processed ++ msgs) (List.foldl packStep st msgs) := by
  induction msgs with
  | nil => intro processed st h; simpa using h
  | cons m rest ih =>
    intro processed st h
    have h2 := ih (processed ++ [m]) (packStep st m) (packStep_inv m h)
    simpa using h2

/-- The packing loop establishes its invariant for the full input. -/
theorem packText_inv (msgs : List (List Nat)) :
    PackInv msgs (packText msgs) := by
  have h := packInv_foldl msgs [] ⟨[], []⟩ packInv_nil
  simpa [packText] using h

/-- One recorded offset per packed string. -/
theorem packText_offsets_length (msgs : List (List Nat)) :
    (packText msgs).offsets.length = msgs.length :=
  (packText_inv msgs).1

/-- Length of the buffer after packing a single string. -/
theorem packText_singleton_length (m : List Nat) :
    (packText [m]).text_data.length =
      m.length + (4 - m.length % 4) % 4 := by
  unfold packText
  simp only [List.foldl_cons, List.foldl_nil]
  rw [packStep_eq ⟨[], []⟩ m rfl]
  simp

/-! ## Loader lemmas -/

theorem loadFont_valid {i : Nat} {s : FontSheet} {f : LoadedFont}
    (h : loadFont i s = some f) : s.width % 16 = 0 ∧ s.height % 16 = 0 := by
  unfold loadFont at h
  by_cases hc : s.width % 16 = 0 ∧ s.height % 16 = 0
  · exact hc
  · rw [if_neg hc] at h
    exact Option.noConfusion h

theorem loadFont_eq {i : Nat} {s : FontSheet} {f : LoadedFont}
    (h : loadFont i s = some f) :
    f = { width     := s.width / 16,
          height    := s.width / 16,
          uniform   := (s.width / 16, s.height / 16),
          bindGroup := i } := by
  have hv := loadFont_valid h
  unfold loadFont at h
  rw [if_pos hv] at h
  injection h with h
  exact h.symm

theorem loadFontsAux_spec :
    ∀ (sheets : List FontSheet) (i : Nat) (fonts : List LoadedFont),
    loadFontsAux i sheets = some fonts →
    fonts.length = sheets.length ∧
    (∀ k, k < sheets.length →
      loadFont (i + k) (sheets.getD k default) =
        some (fonts.getD k default)) := by
  intro sheets
  induction sheets with
  | nil =>
    intro i fonts h
    simp only [loadFontsAux] at h
    injection h with h
    subst h
    exact ⟨rfl, fun k hk => absurd hk (Nat.not_lt_zero k)⟩
  | cons s rest ih =>
    intro i fonts h
    unfold loadFontsAux at h
    cases hf : loadFont i s with
    | none => rw [hf] at h; exact Option.noConfusion h
    | some f =>
      cases hr : loadFontsAux (i + 1) rest with
      | none => rw [hf, hr] at h; exact Option.noConfusion h
      | some fs =>
        rw [hf, hr] at h
        injection h with h
        subst h
        obtain ⟨hl, hk⟩ := ih (i + 1) fs hr
        refine ⟨by simp [hl], ?_⟩
        intro k hkk
        cases k with
        | zero => simpa using hf
        | succ k =>
          have h2 := hk k (by simpa using hkk)
          have h3 : i + (k + 1) = i + 1 + k := by omega
          rw [h3]
          simpa using h2

theorem loadFontsAux_accepts :
    ∀ (sheets : List FontSheet) (i : Nat) (fonts : List LoadedFont),
    loadFontsAux i sheets = some fonts →
    ∀ s ∈ sheets, s.width % 16 = 0 ∧ s.height % 16 = 0 := by
  intro sheets
  induction sheets with
  | nil =>
    intro i fonts _ s hs
    exact absurd hs (List.not_mem_nil s)
  | cons a rest ih =>
    intro i fonts h s hs
    unfold loadFontsAux at h
    cases hf : loadFont i a with
    | none => rw [hf] at h; exact Option.noConfusion h
    | some f =>
      cases hr : loadFontsAux (i + 1) rest with
      | none => rw [hf, hr] at h; exact Option.noConfusion h
      | some fs =>
        rcases List.mem_cons.mp hs with heq | hmem
        · subst heq
          exact loadFont_valid hf
        · exact ih (i + 1) fs hr s hmem

theorem loadFontsAux_rejects :
    ∀ (sheets : List FontSheet) (i : Nat) (s : FontSheet), s ∈ sheets →
    (s.width % 16 ≠ 0 ∨ s.height % 16 ≠ 0) →
    loadFontsAux i sheets = none := by
  intro sheets
  induction sheets with
  | nil => intro i s hs; exact absurd hs (List.not_mem_nil s)
  | cons a rest ih =>
    intro i s hs hbad
    rcases List.mem_cons.mp hs with heq | hmem
    · subst heq
      have hnone : loadFont i s = none := by
        unfold loadFont
        rw [if_neg]
        intro hc
        rcases hbad with hb | hb
        · exact hb hc.1
        · exact hb hc.2
      unfold loadFontsAux
      rw [hnone]
    · have hrest := ih (i + 1) s hmem hbad
      unfold loadFontsAux
      rw [hrest]
      cases loadFont i a <;> rfl

theorem getElem?_eq_some_getD {α : Type} (l : List α) (i : Nat) (d : α)
    (h : i < l.length) : l[i]? = some (l.getD i d) := by
  rw [List.getElem?_eq_getElem h]
  congr 1
  rw [List.getD_eq_getElem?_getD, List.getElem?_eq_getElem h]
  rfl

/-! ## Dispatcher lemmas -/

theorem drawCalls_spec :
    ∀ (items : List TextItem) (offs : List Nat),
    offs.length = items.length →
    (drawCalls items offs).length = items.length ∧
    ∀ i, i < items.length →
      ((drawCalls items offs).getD i default).vertexCount =
        6 * (items.getD i default).msg.length := by
  intro items
  induction items with
  | nil =>
    intro offs _
    refine ⟨?_, ?_⟩
    · cases offs <;> rfl
    · intro i hi
      exact absurd hi (Nat.not_lt_zero i)
  | cons it rest ih =>
    intro offs h
    cases offs with
    | nil => simp at h
    | cons o orest =>
      have h2 : orest.length = rest.length := by simpa using h
      obtain ⟨hl, hg⟩ := ih orest h2
      refine ⟨by simp [drawCalls, hl], ?_⟩
      intro i hi
      cases i with
      | zero =>
        simp only [drawCalls, List.getD_cons_zero]
        omega
      | succ i =>
        have h3 := hg i (by simpa using hi)
        simpa [drawCalls] using h3

/-! ## Claim theorems -/

/-- C1: for every sequence of byte strings packed by the text payload
packer, the payload bytes at `payload[offset*4 .. offset*4+length]` for
each string's recorded `(offset, length)` pair reproduce that string's
original bytes exactly, for every string of the sequence. -/
theorem pack_roundtrip (msgs : List (List Nat)) (i : Nat)
    (h : i < msgs.length) :
    sliceAt (packText msgs).text_data
      ((packText msgs).offsets.getD i 0 * 4) (msgs.getD i []).length =
      msgs.getD i [] :=
  (packText_inv msgs).2.2.2.1 i h

theorem pack_roundtrip_witness :
    1 < ([[104, 105], [119, 111, 114, 108, 100]] : List (List Nat)).length ∧
    sliceAt (packText [[104, 105], [119, 111, 114, 108, 100]]).text_data
      ((packText [[104, 105], [119, 111, 114, 108, 100]]).offsets.getD 1 0 * 4)
      (([[104, 105], [119, 111, 114, 108, 100]] :
        List (List Nat)).getD 1 []).length =
      ([[104, 105], [119, 111, 114, 108, 100]] : List (List Nat)).getD 1 [] :=
  ⟨by decide, pack_roundtrip [[104, 105], [119, 111, 114, 108, 100]] 1
    (by decide)⟩

/-- C2: the claim states `cellHeight = height / 16`, so a 64×96 sheet
should give `cellHeight = 6`; the code (`src/fonts.rs` line 167) sets
the `Font` height field to `dimensions.0 / 16`, reusing the width, so a
64×96 sheet actually gives a `Font` with `height = 4` while
`96 / 16 = 6`.  The adjacent binding-2 uniform uses the real height,
and the field's doc comment says it is the height of a character, so
the code contradicts its own documentation. -/
theorem font_cell_height_bug :
    loadFont 0 ⟨64, 96⟩ =
      some { width := 4, height := 4, uniform := (4, 6), bindGroup := 0 } ∧
    (96 : Nat) / 16 = 6 := by decide

/-- C3: a decoded sheet is accepted only when both dimensions are
multiples of 16 (every sheet of a successful load satisfies the
invariant), and a sheet violating it makes the whole load fail —
`load_fonts` returns no font list at all. -/
theorem loader_validates_grid :
    (∀ (sheets : List FontSheet) (fonts : List LoadedFont),
      load_fonts sheets = some fonts →
      ∀ s ∈ sheets, s.width % 16 = 0 ∧ s.height % 16 = 0) ∧
    (∀ (sheets : List FontSheet) (s : FontSheet), s ∈ sheets →
      (s.width % 16 ≠ 0 ∨ s.height % 16 ≠ 0) →
      load_fonts sheets = none) := by
  constructor
  · intro sheets fonts h s hs
    exact loadFontsAux_accepts sheets 0 fonts h s hs
  · intro sheets s hs hbad
    exact loadFontsAux_rejects sheets 0 s hs hbad

theorem loader_validates_grid_witness :
    load_fonts [⟨3, 16⟩] = none ∧
    ((64 : Nat) % 16 = 0 ∧ (96 : Nat) % 16 = 0) := by
  have h1 := loader_validates_grid.2 [⟨3, 16⟩] ⟨3, 16⟩
    (by simp) (by decide)
  have h2 := loader_validates_grid.1 [⟨64, 96⟩]
    [⟨4, 4, (4, 6), 0⟩] (by decide) ⟨64, 96⟩ (by simp)
  exact ⟨h1, h2⟩

/-- C4: every recorded word offset corresponds to a byte offset that is
a multiple of 4, and the recorded byte ranges
`[offset*4, offset*4+length)` of two distinct strings never overlap
(one of the two ranges ends at or before the start of the other). -/
theorem pack_offsets_aligned_disjoint (msgs : List (List Nat)) (i j : Nat)
    (hi : i < msgs.length) (hj : j < msgs.length) (hne : i ≠ j) :
    (packText msgs).offsets.getD i 0 * 4 % 4 = 0 ∧
    ((packText msgs).offsets.getD i 0 * 4 + (msgs.getD i []).length ≤
        (packText msgs).offsets.getD j 0 * 4 ∨
      (packText msgs).offsets.getD j 0 * 4 + (msgs.getD j []).length ≤
        (packText msgs).offsets.getD i 0 * 4) := by
  refine ⟨by omega, ?_⟩
  rcases Nat.lt_or_ge i j with hlt | hge
  · exact Or.inl ((packText_inv msgs).2.2.2.2 i j hlt hj)
  · have hjlt : j < i := by omega
    exact Or.inr ((packText_inv msgs).2.2.2.2 j i hjlt hi)

theorem pack_offsets_aligned_disjoint_witness :
    (packText [[104, 105], [119, 111, 114, 108, 100]]).offsets.getD 0 0 * 4
        % 4 = 0 ∧
    ((packText [[104, 105], [119, 111, 114, 108, 100]]).offsets.getD 0 0 * 4 +
        (([[104, 105], [119, 111, 114, 108, 100]] :
          List (List Nat)).getD 0 []).length ≤
        (packText [[104, 105], [119, 111, 114, 108, 100]]).offsets.getD 1 0
          * 4 ∨
      (packText [[104, 105], [119, 111, 114, 108, 100]]).offsets.getD 1 0 * 4 +
        (([[104, 105], [119, 111, 114, 108, 100]] :
          List (List Nat)).getD 1 []).length ≤
        (packText [[104, 105], [119, 111, 114, 108, 100]]).offsets.getD 0 0
          * 4) :=
  pack_offsets_aligned_disjoint [[104, 105], [119, 111, 114, 108, 100]] 0 1
    (by decide) (by decide) (by decide)

/-- C5: each packing iteration appends the string's raw bytes of length
`L` followed by exactly `(4 - L % 4) % 4` zero-padding bytes and
records the word offset (byte offset / 4) at which the string began
(the buffer length is a multiple of 4 at the top of every iteration, by
`packText_inv`); and packing `["hi", "world"]` yields word offsets
`[0, 1]` and buffer bytes `h,i,0,0,w,o,r,l,d,0,0,0`. -/
theorem pack_step_padding_scenario (st : PackState) (msg : List Nat)
    (h : st.text_data.length % 4 = 0) :
    packStep st msg =
      { text_data := st.text_data ++
          (msg ++ List.replicate ((4 - msg.length % 4) % 4) 0),
        offsets := st.offsets ++ [st.text_data.length / 4] } ∧
    packText [[104, 105], [119, 111, 114, 108, 100]] =
      ⟨[104, 105, 0, 0, 119, 111, 114, 108, 100, 0, 0, 0], [0, 1]⟩ :=
  ⟨packStep_eq st msg h, by decide⟩

theorem pack_step_padding_scenario_witness :
    (⟨[], []⟩ : PackState).text_data.length % 4 = 0 ∧
    packStep ⟨[], []⟩ [104, 105] = ⟨[104, 105, 0, 0], [0]⟩ := by
  have h := pack_step_padding_scenario ⟨[], []⟩ [104, 105] (by decide)
  refine ⟨by decide, ?_⟩
  rw [h.1]
  decide

/-- C6: the dispatcher issues exactly one draw call per text item, and
the draw call of item `i` covers the vertex range `0..msg.len()*6`,
i.e. its vertex count equals 6 times the item's glyph count. -/
theorem one_draw_six_vertices_per_item (items : List TextItem) :
    (drawCalls items
      (packText (items.map TextItem.msg)).offsets).length = items.length ∧
    ∀ i, i < items.length →
      ((drawCalls items
        (packText (items.map TextItem.msg)).offsets).getD i
          default).vertexCount = 6 * (items.getD i default).msg.length := by
  apply drawCalls_spec
  rw [packText_offsets_length, List.length_map]

theorem one_draw_six_vertices_per_item_witness :
    ((drawCalls [⟨FontSize.Size4x6, [104, 105]⟩]
      (packText ([(⟨FontSize.Size4x6, [104, 105]⟩ : TextItem)].map
        TextItem.msg)).offsets).getD 0 default).vertexCount = 12 := by
  have h := (one_draw_six_vertices_per_item
    [⟨FontSize.Size4x6, [104, 105]⟩]).2 0 (by decide)
  rw [h]
  decide

/-- C7: `FontSize` value `k` selects the font loaded k-th: each
position `k` of the font vector holds exactly the font produced from
the k-th sheet in load order, the binding index (bind group) of the
k-th font is `k`, selection by `FontSize` is lookup at the
discriminant, and the per-font bind groups are pairwise distinct. -/
theorem fontsize_selects_load_order (sheets : List FontSheet)
    (fonts : List LoadedFont) (h : load_fonts sheets = some fonts) :
    fonts.length = sheets.length ∧
    (∀ fs : FontSize, fs.toIndex < fonts.length →
      selectFont fonts fs = some (fonts.getD fs.toIndex default)) ∧
    (∀ k, k < fonts.length →
      loadFont k (sheets.getD k default) = some (fonts.getD k default) ∧
      (fonts.getD k default).bindGroup = k) ∧
    (∀ i j, i < fonts.length → j < fonts.length → i ≠ j →
      (fonts.getD i default).bindGroup ≠ (fonts.getD j default).bindGroup) := by
  obtain ⟨hl, hk⟩ := loadFontsAux_spec sheets 0 fonts h
  have hload : ∀ k, k < fonts.length →
      loadFont k (sheets.getD k default) = some (fonts.getD k default) := by
    intro k hkk
    have h1 := hk k (by omega)
    rw [Nat.zero_add] at h1
    exact h1
  refine ⟨hl, ?_, ?_, ?_⟩
  · intro fs hfs
    unfold selectFont selectFontIdx
    exact getElem?_eq_some_getD fonts fs.toIndex default hfs
  · intro k hkk
    have h2 := loadFont_eq (hload k hkk)
    exact ⟨hload k hkk, by rw [h2]⟩
  · intro i j hi hj hne
    have hbi := loadFont_eq (hload i hi)
    have hbj := loadFont_eq (hload j hj)
    rw [hbi, hbj]
    exact hne

theorem fontsize_selects_load_order_witness :
    load_fonts [⟨64, 96⟩] = some [⟨4, 4, (4, 6), 0⟩] ∧
    selectFont [⟨4, 4, (4, 6), 0⟩] FontSize.Size4x6 =
      some ⟨4, 4, (4, 6), 0⟩ := by
  have h : load_fonts [(⟨64, 96⟩ : FontSheet)] =
      some [⟨4, 4, (4, 6), 0⟩] := by decide
  have h2 := (fontsize_selects_load_order [⟨64, 96⟩]
    [⟨4, 4, (4, 6), 0⟩] h).2.1 FontSize.Size4x6 (by decide)
  refine ⟨h, ?_⟩
  rw [h2]
  decide

/-- C8: selecting a font at an index at or beyond the end of the loaded
font set fails deterministically — the bounds-checked lookup yields no
font at all, so it can neither wrap to another font nor read
out-of-range memory. -/
theorem select_font_out_of_range (fonts : List LoadedFont) (i : Nat)
    (h : fonts.length ≤ i) : selectFontIdx fonts i = none := by
  unfold selectFontIdx
  exact List.getElem?_eq_none h

theorem select_font_out_of_range_witness :
    ([(⟨4, 4, (4, 6), 0⟩ : LoadedFont)] : List LoadedFont).length ≤ 5 ∧
    selectFontIdx [⟨4, 4, (4, 6), 0⟩] 5 = none :=
  ⟨by decide, select_font_out_of_range [⟨4, 4, (4, 6), 0⟩] 5 (by decide)⟩

/-- C9: when the packed payload exceeds the fixed capacity
`FONT_BUFFER_SIZE` of the preallocated GPU buffer, the upload fails
fatally and the frame setup produces no draw calls at all — rendering
never uses the oversized payload, and the buffer capacity is the fixed
constant, never grown. -/
theorem payload_overflow_fatal (items : List TextItem)
    (h : FONT_BUFFER_SIZE <
      (packText (items.map TextItem.msg)).text_data.length) :
    frameSetup items = none := by
  have hw : writeBuffer FONT_BUFFER_SIZE
      (packText (items.map TextItem.msg)).text_data = none := by
    unfold writeBuffer
    rw [if_neg (by omega)]
  unfold frameSetup
  dsimp only
  rw [hw]

theorem payload_overflow_fatal_witness :
    FONT_BUFFER_SIZE <
      (packText ([(⟨FontSize.Size4x6, List.replicate 1048577 97⟩ :
        TextItem)].map TextItem.msg)).text_data.length ∧
    frameSetup [⟨FontSize.Size4x6, List.replicate 1048577 97⟩] = none := by
  have hmap : ([(⟨FontSize.Size4x6, List.replicate 1048577 97⟩ :
      TextItem)].map TextItem.msg) = [List.replicate 1048577 97] := rfl
  have hlen : (packText ([(⟨FontSize.Size4x6, List.replicate 1048577 97⟩ :
      TextItem)].map TextItem.msg)).text_data.length = 1048580 := by
    rw [hmap, packText_singleton_length, List.length_replicate]
  have hlt : FONT_BUFFER_SIZE <
      (packText ([(⟨FontSize.Size4x6, List.replicate 1048577 97⟩ :
        TextItem)].map TextItem.msg)).text_data.length := by
    rw [hlen]
    norm_num [FONT_BUFFER_SIZE]
  exact ⟨hlt, payload_overflow_fatal _ hlt⟩

/-- C10: for every successfully loaded sheet, the binding-2 uniform
holds the pair `(width / 16, height / 16)` computed from the sheet's
actual width and actual height; consequently, whenever the sheet's
width and height differ, the uniform's second component differs from
the `Font` entity's height field (which the code computes as
`width / 16`). -/
theorem binding2_uniform_actual_dims (i : Nat) (s : FontSheet)
    (f : LoadedFont) (h : loadFont i s = some f) :
    f.uniform = (s.width / 16, s.height / 16) ∧
    (s.width ≠ s.height → f.uniform.2 ≠ f.height) := by
  obtain ⟨hw, hh⟩ := loadFont_valid h
  have he := loadFont_eq h
  subst he
  refine ⟨rfl, ?_⟩
  intro hne heq
  dsimp at heq
  exact hne (by omega)

theorem binding2_uniform_actual_dims_witness :
    loadFont 0 ⟨64, 96⟩ =
      some { width := 4, height := 4, uniform := (4, 6), bindGroup := 0 } ∧
    ({ width := 4, height := 4, uniform := (4, 6), bindGroup := 0 } :
      LoadedFont).uniform = (64 / 16, 96 / 16) ∧
    ({ width := 4, height := 4, uniform := (4, 6), bindGroup := 0 } :
      LoadedFont).uniform.2 ≠
      ({ width := 4, height := 4, uniform := (4, 6), bindGroup := 0 } :
        LoadedFont).height := by
  have h : loadFont 0 ⟨64, 96⟩ =
      some { width := 4, height := 4, uniform := (4, 6), bindGroup := 0 } := by
    decide
  have h2 := binding2_uniform_actual_dims 0 ⟨64, 96⟩ _ h
  exact ⟨h, h2.1, h2.2 (by decide)⟩

end FontTest
